import Mathlib

/-!
Verification of the YoloMode auto-accept extension.

The development shallowly embeds the code of the repository:

* the three-state polling scheduler (`transitionTo`, `clearStatefulTimers`,
  `startSleepDetection`) of `extension.js` (v3.0.0);
* the re-entrancy-guarded acceptance pass (`tryAcceptAll`) and the fixed
  command list `ACCEPT_COMMANDS`;
* the CDP request/response bookkeeping of `cdpSend` together with the
  WebSocket `close` handler;
* the per-target connection pool (`cdpConnectTarget`,
  `cdpDiscoverAndConnect`) of the v3.1.0 source;
* the injected accept script `CDP_ACCEPT_SCRIPT` with its activation
  cooldown;
* `stripJsonComments` (both the v3.0.0 variant and the v3.1.0 variant with
  trailing-comma removal), `findAvailablePort`, `insertPortIntoArgv`,
  a model of `JSON.parse`, and `ensureDebugPort`.

Timers are modelled by an explicit environment of live timer handles;
asynchronous callbacks become explicit events acting on the state.
All text processing is done on `List Char` (JavaScript strings are
sequences of code units; the inputs of interest are ASCII).
-/

namespace YoloMode

/-! ## Scheduler state machine (extension.js v3.0.0, lines 15, 380-421, 576-588)

JavaScript timer handles are opaque values returned by `setInterval` /
`setTimeout`; `clearInterval` / `clearTimeout` cancel the handle they are
given.  We model the host timer table explicitly: a list of live
`(handle, kind)` pairs together with a fresh-handle counter.  The kind
records which piece of the extension owns the timer. -/

inductive SchedState
  | IDLE
  | FAST
  | SLOW
deriving DecidableEq, Repr

inductive TimerKind
  | poll        -- the repeating `pollInterval` installed by `transitionTo`
  | stateExp    -- the one-shot `stateTimeout` installed by `transitionTo`
  | heartbeat   -- `heartbeatInterval` (startHeartbeat)
  | sleepCheck  -- `sleepCheckInterval` (startSleepDetection)
deriving DecidableEq, Repr

structure TimerEnv where
  timers : List (Nat × TimerKind)
  next : Nat
deriving DecidableEq, Repr

/-- `setInterval` / `setTimeout`: install a timer, returning its fresh handle. -/
def TimerEnv.install (env : TimerEnv) (k : TimerKind) : TimerEnv × Nat :=
  ({ timers := (env.next, k) :: env.timers, next := env.next + 1 }, env.next)

/-- `clearInterval` / `clearTimeout`: cancel the timer with the given handle. -/
def TimerEnv.clear (env : TimerEnv) (id : Nat) : TimerEnv :=
  { env with timers := env.timers.filter (fun t => t.1 != id) }

/-- The module-level mutable state of `extension.js` that the scheduler
touches: `currentState`, the four timer handle variables, `lastTickTime`,
`enabled`, plus the host timer table. -/
structure Sched where
  currentState : SchedState
  pollInterval : Option Nat
  stateTimeout : Option Nat
  heartbeatInterval : Option Nat
  sleepCheckInterval : Option Nat
  lastTickTime : Nat
  enabled : Bool
  env : TimerEnv
deriving DecidableEq, Repr

/-- `clearStatefulTimers` (extension.js lines 411-414). -/
def clearStatefulTimers (s : Sched) : Sched :=
  let s1 :=
    match s.pollInterval with
    | some id => { s with env := s.env.clear id, pollInterval := none }
    | none => s
  match s1.stateTimeout with
  | some id => { s1 with env := s1.env.clear id, stateTimeout := none }
  | none => s1

/-- `transitionTo` (extension.js lines 380-409): first cancel both
scheduler-owned timers, set `currentState`, then install the new state's
timers (`setInterval(tryAcceptAll, …)` and the expiry `setTimeout`). -/
def transitionTo (s : Sched) (newState : SchedState) : Sched :=
  let s1 := clearStatefulTimers s
  let s2 := { s1 with currentState := newState }
  match newState with
  | .FAST =>
      let (env1, pid) := s2.env.install .poll
      let (env2, tid) := env1.install .stateExp
      { s2 with env := env2, pollInterval := some pid, stateTimeout := some tid }
  | .SLOW =>
      let (env1, pid) := s2.env.install .poll
      let (env2, tid) := env1.install .stateExp
      { s2 with env := env2, pollInterval := some pid, stateTimeout := some tid }
  | .IDLE => s2

/-- The body of the `sleepCheckInterval` callback in `startSleepDetection`
(extension.js lines 576-588): compute the drift since the last tick, force
a transition to FAST if it exceeds 10000 ms and the feature is enabled,
then record the current tick time. -/
def sleepCheckTick (s : Sched) (now : Nat) : Sched :=
  let drift : Int := (now : Int) - (s.lastTickTime : Int)
  let s1 :=
    if drift > 10000 then
      (if s.enabled then transitionTo s .FAST else s)
    else s
  { s1 with lastTickTime := now }

/-- The asynchronous callbacks that drive the scheduler: a trigger event
from any registered listener, the firing of the state-expiry timeout
(whose closure transitions FAST→SLOW resp. SLOW→IDLE), and a tick of the
liveness sampler. -/
inductive Ev
  | trigger
  | stateTimeoutFired
  | sleepTick (now : Nat)

def step (s : Sched) : Ev → Sched
  | .trigger => if s.enabled then transitionTo s .FAST else s
  | .stateTimeoutFired =>
      if s.stateTimeout.isSome then
        match s.currentState with
        | .FAST => transitionTo s .SLOW
        | .SLOW => transitionTo s .IDLE
        | .IDLE => s
      else s
  | .sleepTick now => sleepCheckTick s now

def run (s : Sched) (evs : List Ev) : Sched :=
  evs.foldl step s

/-- The state right after `activate` with the feature enabled: IDLE, the
heartbeat and the liveness sampler armed, no scheduler-owned timers. -/
def initSched : Sched :=
  let (e1, hb) := TimerEnv.install { timers := [], next := 0 } .heartbeat
  let (e2, sc) := e1.install .sleepCheck
  { currentState := .IDLE, pollInterval := none, stateTimeout := none,
    heartbeatInterval := some hb, sleepCheckInterval := some sc,
    lastTickTime := 0, enabled := true, env := e2 }

def pollTimers (env : TimerEnv) : List (Nat × TimerKind) :=
  env.timers.filter (fun t => t.2 == .poll)

def stateExpTimers (env : TimerEnv) : List (Nat × TimerKind) :=
  env.timers.filter (fun t => t.2 == .stateExp)

/-- The timers the scheduler does not own: heartbeat and liveness sampler. -/
def baselineTimers (env : TimerEnv) : List (Nat × TimerKind) :=
  env.timers.filter (fun t => t.2 == .heartbeat || t.2 == .sleepCheck)

def optTimerList : Option Nat → TimerKind → List (Nat × TimerKind)
  | some id, k => [(id, k)]
  | none, _ => []

/-- The timers armed by `activate` before any transition: the liveness
sampler (handle 1) and the heartbeat (handle 0).  None of the events of
the claim (triggers, expiries, liveness ticks) ever create or cancel
them, so along such runs they stay fixed. -/
def baseList : List (Nat × TimerKind) := [(1, .sleepCheck), (0, .heartbeat)]

/-- The inductive invariant tying the stored handle variables to the live
timer table: the live timers are exactly the (at most one) state-expiry
timer, the (at most one) repeating poll timer, and the two baseline
timers, and the stored handles are fresh and distinct. -/
structure SchedInv (s : Sched) : Prop where
  shape : s.env.timers =
    optTimerList s.stateTimeout .stateExp ++ optTimerList s.pollInterval .poll ++ baseList
  hpoll : ∀ id, s.pollInterval = some id → 2 ≤ id ∧ id < s.env.next
  htexp : ∀ id, s.stateTimeout = some id → 2 ≤ id ∧ id < s.env.next
  hdist : ∀ i j, s.pollInterval = some i → s.stateTimeout = some j → i ≠ j
  hnext : 2 ≤ s.env.next
  hhb : s.heartbeatInterval = some 0
  hsc : s.sleepCheckInterval = some 1

theorem initSched_inv : SchedInv initSched := by
  refine ⟨rfl, ?_, ?_, ?_, ?_, rfl, rfl⟩ <;> simp [initSched, TimerEnv.install]

theorem baseList_clear (pid : Nat) (h : 2 ≤ pid) :
    baseList.filter (fun t => t.1 != pid) = baseList := by
  have h0 : ((0 : Nat) != pid) = true := by simp; omega
  have h1 : ((1 : Nat) != pid) = true := by simp; omega
  simp [baseList, List.filter, h0, h1]

/-- On an invariant-satisfying state, `clearStatefulTimers` cancels
exactly the two scheduler-owned timers and leaves everything else (the
baseline timers in particular) untouched. -/
theorem clearStatefulTimers_spec (s : Sched) (h : SchedInv s) :
    clearStatefulTimers s =
      { s with pollInterval := none, stateTimeout := none,
               env := { timers := baseList, next := s.env.next } } := by
  obtain ⟨hsh, hp, ht, hd, hn, _, _⟩ := h
  cases hpI : s.pollInterval with
  | none =>
    cases htI : s.stateTimeout with
    | none =>
      simp only [clearStatefulTimers, hpI, htI]
      have : s.env.timers = baseList := by simpa [hpI, htI, optTimerList] using hsh
      cases s with
      | mk cs pi st hb sc lt en env =>
        cases env
        simp_all
    | some tid =>
      obtain ⟨htid2, _⟩ := ht tid htI
      have hshape : s.env.timers = (tid, TimerKind.stateExp) :: baseList := by
        simpa [hpI, htI, optTimerList] using hsh
      have hfil : s.env.timers.filter (fun t => t.1 != tid) = baseList := by
        rw [hshape, List.filter_cons]
        simp only [bne_self_eq_false, Bool.false_eq_true, if_false]
        exact baseList_clear tid htid2
      simp only [clearStatefulTimers, hpI, htI, TimerEnv.clear]
      cases s with
      | mk cs pi st hb sc lt en env =>
        cases env
        simp_all
        exact hfil
  | some pid =>
    obtain ⟨hpid2, _⟩ := hp pid hpI
    cases htI : s.stateTimeout with
    | none =>
      have hshape : s.env.timers = (pid, TimerKind.poll) :: baseList := by
        simpa [hpI, htI, optTimerList] using hsh
      have hfil : s.env.timers.filter (fun t => t.1 != pid) = baseList := by
        rw [hshape, List.filter_cons]
        simp only [bne_self_eq_false, Bool.false_eq_true, if_false]
        exact baseList_clear pid hpid2
      simp only [clearStatefulTimers, hpI, htI, TimerEnv.clear]
      cases s with
      | mk cs pi st hb sc lt en env =>
        cases env
        simp_all
        exact hfil
    | some tid =>
      obtain ⟨htid2, _⟩ := ht tid htI
      have hne : pid ≠ tid := hd pid tid hpI htI
      have hshape : s.env.timers =
          (tid, TimerKind.stateExp) :: (pid, TimerKind.poll) :: baseList := by
        simpa [hpI, htI, optTimerList] using hsh
      have htp : (tid != pid) = true := by simp; omega
      have hfil1 : s.env.timers.filter (fun t => t.1 != pid) =
          (tid, TimerKind.stateExp) :: baseList := by
        rw [hshape, List.filter_cons, List.filter_cons]
        simp only [htp, bne_self_eq_false, Bool.false_eq_true, if_true, if_false]
        rw [baseList_clear pid hpid2]
      have hfil2 : ((tid, TimerKind.stateExp) :: baseList).filter (fun t => t.1 != tid) =
          baseList := by
        rw [List.filter_cons]
        simp only [bne_self_eq_false, Bool.false_eq_true, if_false]
        exact baseList_clear tid htid2
      simp only [clearStatefulTimers, hpI, htI, TimerEnv.clear]
      cases s with
      | mk cs pi st hb sc lt en env =>
        cases env
        simp_all
        intro a b hmem
        exact ⟨hfil2 a b hmem, hfil1 a b hmem⟩

theorem transitionTo_FAST_spec (s : Sched) (h : SchedInv s) :
    transitionTo s .FAST =
      { s with currentState := .FAST,
               pollInterval := some s.env.next,
               stateTimeout := some (s.env.next + 1),
               env := { timers := (s.env.next + 1, .stateExp) :: (s.env.next, .poll) :: baseList,
                        next := s.env.next + 2 } } := by
  have hc := clearStatefulTimers_spec s h
  simp [transitionTo, hc, TimerEnv.install]

theorem transitionTo_SLOW_spec (s : Sched) (h : SchedInv s) :
    transitionTo s .SLOW =
      { s with currentState := .SLOW,
               pollInterval := some s.env.next,
               stateTimeout := some (s.env.next + 1),
               env := { timers := (s.env.next + 1, .stateExp) :: (s.env.next, .poll) :: baseList,
                        next := s.env.next + 2 } } := by
  have hc := clearStatefulTimers_spec s h
  simp [transitionTo, hc, TimerEnv.install]

theorem transitionTo_IDLE_spec (s : Sched) (h : SchedInv s) :
    transitionTo s .IDLE =
      { s with currentState := .IDLE,
               pollInterval := none,
               stateTimeout := none,
               env := { timers := baseList, next := s.env.next } } := by
  have hc := clearStatefulTimers_spec s h
  simp [transitionTo, hc]

theorem transitionTo_inv (s : Sched) (h : SchedInv s) (st : SchedState) :
    SchedInv (transitionTo s st) := by
  have hnext := h.hnext
  cases st with
  | IDLE =>
    rw [transitionTo_IDLE_spec s h]
    refine ⟨rfl, ?_, ?_, ?_, hnext, h.hhb, h.hsc⟩
    · intro id hid
      cases hid
    · intro id hid
      cases hid
    · intro i j hi hj
      cases hi
  | FAST =>
    rw [transitionTo_FAST_spec s h]
    refine ⟨rfl, ?_, ?_, ?_, by dsimp only; omega, h.hhb, h.hsc⟩
    · intro id hid
      obtain rfl : s.env.next = id := by simpa using hid
      dsimp only
      omega
    · intro id hid
      obtain rfl : s.env.next + 1 = id := by simpa using hid
      dsimp only
      omega
    · intro i j hi hj
      obtain rfl : s.env.next = i := by simpa using hi
      obtain rfl : s.env.next + 1 = j := by simpa using hj
      omega
  | SLOW =>
    rw [transitionTo_SLOW_spec s h]
    refine ⟨rfl, ?_, ?_, ?_, by dsimp only; omega, h.hhb, h.hsc⟩
    · intro id hid
      obtain rfl : s.env.next = id := by simpa using hid
      dsimp only
      omega
    · intro id hid
      obtain rfl : s.env.next + 1 = id := by simpa using hid
      dsimp only
      omega
    · intro i j hi hj
      obtain rfl : s.env.next = i := by simpa using hi
      obtain rfl : s.env.next + 1 = j := by simpa using hj
      omega

/-- Updating `lastTickTime` alone cannot break the timer invariant. -/
theorem lastTick_inv (s : Sched) (h : SchedInv s) (now : Nat) :
    SchedInv { s with lastTickTime := now } :=
  ⟨h.shape, h.hpoll, h.htexp, h.hdist, h.hnext, h.hhb, h.hsc⟩

theorem sleepCheckTick_inv (s : Sched) (h : SchedInv s) (now : Nat) :
    SchedInv (sleepCheckTick s now) := by
  simp only [sleepCheckTick]
  split
  · split
    · exact lastTick_inv _ (transitionTo_inv s h .FAST) now
    · exact lastTick_inv _ h now
  · exact lastTick_inv _ h now

theorem step_inv (s : Sched) (h : SchedInv s) (e : Ev) : SchedInv (step s e) := by
  cases e with
  | trigger =>
    simp only [step]
    split
    · exact transitionTo_inv s h .FAST
    · exact h
  | stateTimeoutFired =>
    simp only [step]
    split
    · split
      · exact transitionTo_inv s h .SLOW
      · exact transitionTo_inv s h .IDLE
      · exact h
    · exact h
  | sleepTick now =>
    simp only [step]
    exact sleepCheckTick_inv s h now

theorem run_inv (s : Sched) (h : SchedInv s) (evs : List Ev) : SchedInv (run s evs) := by
  induction evs generalizing s with
  | nil => exact h
  | cons e rest ih => exact ih (step s e) (step_inv s h e)

theorem pollTimers_of_inv (s : Sched) (h : SchedInv s) :
    pollTimers s.env = optTimerList s.pollInterval .poll := by
  rw [pollTimers, h.shape]
  cases s.stateTimeout <;> cases s.pollInterval <;> rfl

theorem stateExpTimers_of_inv (s : Sched) (h : SchedInv s) :
    stateExpTimers s.env = optTimerList s.stateTimeout .stateExp := by
  rw [stateExpTimers, h.shape]
  cases s.stateTimeout <;> cases s.pollInterval <;> rfl

theorem baselineTimers_of_inv (s : Sched) (h : SchedInv s) :
    baselineTimers s.env = baseList := by
  rw [baselineTimers, h.shape]
  cases s.stateTimeout <;> cases s.pollInterval <;> rfl

theorem optTimerList_length (o : Option Nat) (k : TimerKind) :
    (optTimerList o k).length ≤ 1 := by
  cases o <;> simp [optTimerList]

/-- **C1.** For every sequence of trigger events, timer expiries, and
liveness recoveries, the scheduler has at most one live repeating poll
timer and at most one live state-expiry timer at any instant; moreover
every call to `transitionTo` first cancels both scheduler-owned timers
(`pollInterval` and `stateTimeout`) before installing the timers of the
new state — any poll or state-expiry timer live after the call carries a
freshly allocated handle — and never touches the heartbeat or liveness
timers. -/
theorem C1_single_live_timer_invariant (evs : List Ev) (st : SchedState) :
    (pollTimers (run initSched evs).env).length ≤ 1 ∧
    (stateExpTimers (run initSched evs).env).length ≤ 1 ∧
    baselineTimers (transitionTo (run initSched evs) st).env =
      baselineTimers (run initSched evs).env ∧
    (∀ t ∈ (transitionTo (run initSched evs) st).env.timers,
       t.2 = TimerKind.poll ∨ t.2 = TimerKind.stateExp →
       (run initSched evs).env.next ≤ t.1) ∧
    (pollTimers (transitionTo (run initSched evs) st).env).length ≤ 1 ∧
    (stateExpTimers (transitionTo (run initSched evs) st).env).length ≤ 1 := by
  have h : SchedInv (run initSched evs) := run_inv initSched initSched_inv evs
  have h2 : SchedInv (transitionTo (run initSched evs) st) :=
    transitionTo_inv _ h st
  refine ⟨?_, ?_, ?_, ?_, ?_, ?_⟩
  · rw [pollTimers_of_inv _ h]
    exact optTimerList_length _ _
  · rw [stateExpTimers_of_inv _ h]
    exact optTimerList_length _ _
  · rw [baselineTimers_of_inv _ h2, baselineTimers_of_inv _ h]
  · intro t ht hk
    set s := run initSched evs with hs
    cases st with
    | IDLE =>
      rw [transitionTo_IDLE_spec s h] at ht
      dsimp only at ht
      simp only [baseList, List.mem_cons, List.not_mem_nil, or_false] at ht
      rcases ht with rfl | rfl <;> simp at hk
    | FAST =>
      rw [transitionTo_FAST_spec s h] at ht
      dsimp only at ht
      simp only [baseList, List.mem_cons, List.not_mem_nil, or_false] at ht
      rcases ht with rfl | rfl | rfl | rfl
      · dsimp only
        omega
      · dsimp only
        omega
      · simp at hk
      · simp at hk
    | SLOW =>
      rw [transitionTo_SLOW_spec s h] at ht
      dsimp only at ht
      simp only [baseList, List.mem_cons, List.not_mem_nil, or_false] at ht
      rcases ht with rfl | rfl | rfl | rfl
      · dsimp only
        omega
      · dsimp only
        omega
      · simp at hk
      · simp at hk
  · rw [pollTimers_of_inv _ h2]
    exact optTimerList_length _ _
  · rw [stateExpTimers_of_inv _ h2]
    exact optTimerList_length _ _

/-- **C6.** Whenever the liveness sampler observes a gap between
successive time samples exceeding 2× the 5 s sampling cadence
(drift > 10000 ms) and the feature is enabled, it forces a transition to
FAST regardless of the scheduler state before the gap: the next observed
scheduler state is FAST. -/
theorem C6_liveness_recovery (s : Sched) (now : Nat)
    (hgap : (now : Int) - (s.lastTickTime : Int) > 10000)
    (hen : s.enabled = true) :
    (sleepCheckTick s now).currentState = SchedState.FAST ∧
    (sleepCheckTick s now).lastTickTime = now := by
  have hcs : (transitionTo s .FAST).currentState = SchedState.FAST := by
    simp only [transitionTo]
  refine ⟨?_, rfl⟩
  show (if (now : Int) - (s.lastTickTime : Int) > 10000 then
          (if s.enabled then transitionTo s .FAST else s)
        else s).currentState = SchedState.FAST
  rw [if_pos hgap, if_pos hen]
  exact hcs

/-- Witness for C6: a concrete gapped sample on the initial state forces
FAST. -/
theorem C6_liveness_recovery_witness :
    (sleepCheckTick initSched 20000).currentState = SchedState.FAST ∧
    (sleepCheckTick initSched 20000).lastTickTime = 20000 :=
  C6_liveness_recovery initSched 20000 (by decide) rfl

/-! ## Acceptance pass and re-entrancy guard (extension.js v3.0.0, lines 43-49, 356-377)

`tryAcceptAll` runs the five host commands of `ACCEPT_COMMANDS` (each
wrapped in its own try/catch), then the CDP fallback, under the
`isAccepting` guard with a `finally` that clears the guard.  The host is
abstracted as a function assigning each command an outcome (completes or
throws), and the CDP call likewise; the pass records the trace of
command invocations it performed. -/

def ACCEPT_COMMANDS : List String :=
  [ "antigravity.agent.acceptAgentStep",
    "antigravity.terminalCommand.accept",
    "antigravity.command.accept",
    "antigravity.prioritized.agentAcceptAllInFile",
    "antigravity.prioritized.agentAcceptFocusedHunk" ]

inductive Outcome
  | ok
  | threw
deriving DecidableEq, Repr

/-- The `for (const cmdId of ACCEPT_COMMANDS)` loop: each command is
executed inside its own try/catch, so a throwing command is swallowed
(`catch (_) {}`) and the loop continues with the next command.  The
result is the trace of `(command, outcome)` invocations. -/
def runAcceptCommands (host : String → Outcome) : List String → List (String × Outcome)
  | [] => []
  | c :: rest =>
    match host c with
    | .ok => (c, .ok) :: runAcceptCommands host rest
    | .threw => (c, .threw) :: runAcceptCommands host rest

/-- The module globals read and written by `tryAcceptAll`. -/
structure AcceptCtx where
  enabled : Bool
  isAccepting : Bool
deriving DecidableEq, Repr

/-- The observable result of one invocation of `tryAcceptAll`. -/
structure PassResult where
  finalCtx : AcceptCtx
  executed : List (String × Outcome)
  cdpAttempted : Bool
  skipped : Bool
  loggedError : Bool
deriving DecidableEq, Repr

/-- `tryAcceptAll` (extension.js lines 356-377): bail out if disabled or
already accepting; otherwise set the guard, run the command loop, run the
CDP fallback (`tryAcceptViaCDP`), log if the body threw, and clear the
guard in the `finally` block. -/
def tryAcceptAll (ctx : AcceptCtx) (host : String → Outcome) (cdp : Outcome) : PassResult :=
  if !ctx.enabled || ctx.isAccepting then
    { finalCtx := ctx, executed := [], cdpAttempted := false,
      skipped := true, loggedError := false }
  else
    let executed := runAcceptCommands host ACCEPT_COMMANDS
    { finalCtx := { ctx with isAccepting := false },
      executed := executed,
      cdpAttempted := true,
      skipped := false,
      loggedError := cdp == .threw }

/-- **C2.** The re-entrancy guard serializes acceptance passes: an
invocation made while `isAccepting` is true returns immediately, running
no accept command and no remote evaluation; and after a non-skipped
invocation settles — even when the body throws — the guard is false
again. -/
theorem C2_reentrancy_guard (ctx : AcceptCtx) (host : String → Outcome) (cdp : Outcome) :
    (ctx.isAccepting = true →
       tryAcceptAll ctx host cdp =
         { finalCtx := ctx, executed := [], cdpAttempted := false,
           skipped := true, loggedError := false }) ∧
    ((tryAcceptAll ctx host cdp).skipped = false →
       (tryAcceptAll ctx host cdp).finalCtx.isAccepting = false) := by
  constructor
  · intro hacc
    simp [tryAcceptAll, hacc]
  · intro hran
    unfold tryAcceptAll at hran ⊢
    split
    · simp_all
    · rfl

/-- Witness for C2: a pass invoked while a pass is in flight executes
nothing, and a completed pass (here with a throwing CDP body) ends with
the guard cleared. -/
theorem C2_reentrancy_guard_witness :
    tryAcceptAll ⟨true, true⟩ (fun _ => .ok) .threw =
      { finalCtx := ⟨true, true⟩, executed := [], cdpAttempted := false,
        skipped := true, loggedError := false } ∧
    (tryAcceptAll ⟨true, false⟩ (fun _ => .ok) .threw).finalCtx.isAccepting = false :=
  ⟨(C2_reentrancy_guard ⟨true, true⟩ (fun _ => .ok) .threw).1 rfl,
   (C2_reentrancy_guard ⟨true, false⟩ (fun _ => .ok) .threw).2 rfl⟩

theorem runAcceptCommands_fst (host : String → Outcome) (cmds : List String) :
    (runAcceptCommands host cmds).map Prod.fst = cmds := by
  induction cmds with
  | nil => rfl
  | cons c rest ih =>
    unfold runAcceptCommands
    cases host c <;> simpa using ih

/-- **C3.** Every completed (non-skipped) invocation of `tryAcceptAll`
invokes each of the five accept actions exactly once, in the fixed order
of `ACCEPT_COMMANDS`, regardless of which actions throw — per-action
errors are swallowed and the loop continues — and then attempts the CDP
fallback. -/
theorem C3_all_commands_every_pass (ctx : AcceptCtx) (host : String → Outcome)
    (cdp : Outcome) (hran : (tryAcceptAll ctx host cdp).skipped = false) :
    (tryAcceptAll ctx host cdp).executed.map Prod.fst = ACCEPT_COMMANDS ∧
    (tryAcceptAll ctx host cdp).executed.length = 5 ∧
    (tryAcceptAll ctx host cdp).cdpAttempted = true := by
  unfold tryAcceptAll at hran ⊢
  split
  · simp_all
  · refine ⟨runAcceptCommands_fst host ACCEPT_COMMANDS, ?_, rfl⟩
    have h := congrArg List.length (runAcceptCommands_fst host ACCEPT_COMMANDS)
    simpa using h

/-- Witness for C3: a concrete pass in which every action throws still
executes all five commands in order. -/
theorem C3_all_commands_every_pass_witness :
    (tryAcceptAll ⟨true, false⟩ (fun _ => .threw) .ok).executed.map Prod.fst =
      ACCEPT_COMMANDS ∧
    (tryAcceptAll ⟨true, false⟩ (fun _ => .threw) .ok).executed.length = 5 ∧
    (tryAcceptAll ⟨true, false⟩ (fun _ => .threw) .ok).cdpAttempted = true :=
  C3_all_commands_every_pass ⟨true, false⟩ (fun _ => .threw) .ok rfl

/-! ## CDP request bookkeeping (extension.js v3.0.0, lines 188-206, 226-252)

`cdpSend` allocates an id from the global `cdpMessageId` counter, stores
a `{resolve, reject}` callback in the global object `cdpPendingCallbacks`,
and arms a 5 s timeout that rejects and deletes the entry *if the entry
is still present in the then-current `cdpPendingCallbacks` object*.  The
`message` handler settles and deletes a matching entry; the `close`
handler reassigns `cdpPendingCallbacks = {}`.  We track, per request id,
whether its promise has ever been settled. -/

inductive PStatus
  | unsettled
  | resolvedOk
  | rejectedErr
deriving DecidableEq, Repr

structure CdpConn where
  wsOpen : Bool
  cdpMessageId : Nat
  pending : List Nat
  status : Nat → PStatus

inductive CdpEv
  | send
  | response (id : Nat) (isError : Bool)
  | timeoutFire (id : Nat)
  | close
  | reopen

/-- One asynchronous event against the connection state, mirroring
`cdpSend` (lines 188-206), the `message` handler (lines 231-244), the 5 s
timeout body (lines 199-204), and the `close` handler (lines 246-252,
which replaces `cdpPendingCallbacks` with a fresh empty object and
settles nothing). -/
def cdpStep (s : CdpConn) : CdpEv → CdpConn
  | .send =>
    if s.wsOpen then
      { s with cdpMessageId := s.cdpMessageId + 1,
               pending := s.cdpMessageId :: s.pending }
    else
      s  -- `reject(new Error('CDP not connected'))`: no entry is created
  | .response id isError =>
    if s.pending.contains id then
      { s with pending := s.pending.filter (fun j => j != id),
               status := fun j => if j = id then
                 (if isError then .rejectedErr else .resolvedOk) else s.status j }
    else s
  | .timeoutFire id =>
    if s.pending.contains id then
      { s with pending := s.pending.filter (fun j => j != id),
               status := fun j => if j = id then .rejectedErr else s.status j }
    else s
  | .close =>
    { s with wsOpen := false, pending := [] }
  | .reopen =>
    { s with wsOpen := true }

def cdpRun (s : CdpConn) (evs : List CdpEv) : CdpConn :=
  evs.foldl cdpStep s

/-- The connection state right after `cdpConnect` succeeds: counter at 1
(`let cdpMessageId = 1`), no pending entries, no promise settled. -/
def cdpInit : CdpConn :=
  { wsOpen := true, cdpMessageId := 1, pending := [], status := fun _ => .unsettled }

theorem cdpStep_leak_inv (s : CdpConn) (e : CdpEv)
    (h1 : ¬ (1 ∈ s.pending)) (h2 : 2 ≤ s.cdpMessageId)
    (h3 : s.status 1 = .unsettled) :
    ¬ (1 ∈ (cdpStep s e).pending) ∧ 2 ≤ (cdpStep s e).cdpMessageId ∧
    (cdpStep s e).status 1 = .unsettled := by
  cases e with
  | send =>
    simp only [cdpStep]
    split
    · refine ⟨?_, by dsimp only; omega, h3⟩
      intro hmem
      dsimp only at hmem
      rcases List.mem_cons.mp hmem with h | h
      · omega
      · exact h1 h
    · exact ⟨h1, h2, h3⟩
  | response id isError =>
    simp only [cdpStep]
    split
    next hc =>
      simp only [List.elem_eq_mem, decide_eq_true_eq] at hc
      have hne : (1 : Nat) ≠ id := by
        intro he
        rw [← he] at hc
        exact h1 hc
      refine ⟨?_, h2, ?_⟩
      · intro hmem
        exact h1 (List.mem_of_mem_filter hmem)
      · dsimp only
        rw [if_neg hne]
        exact h3
    next hc => exact ⟨h1, h2, h3⟩
  | timeoutFire id =>
    simp only [cdpStep]
    split
    next hc =>
      simp only [List.elem_eq_mem, decide_eq_true_eq] at hc
      have hne : (1 : Nat) ≠ id := by
        intro he
        rw [← he] at hc
        exact h1 hc
      refine ⟨?_, h2, ?_⟩
      · intro hmem
        exact h1 (List.mem_of_mem_filter hmem)
      · dsimp only
        rw [if_neg hne]
        exact h3
    next hc => exact ⟨h1, h2, h3⟩
  | close => exact ⟨by simp [cdpStep], h2, h3⟩
  | reopen => exact ⟨h1, h2, h3⟩

theorem cdpRun_leak (s : CdpConn) (evs : List CdpEv)
    (h1 : ¬ (1 ∈ s.pending)) (h2 : 2 ≤ s.cdpMessageId)
    (h3 : s.status 1 = .unsettled) :
    (cdpRun s evs).status 1 = .unsettled := by
  induction evs generalizing s with
  | nil => exact h3
  | cons e rest ih =>
    obtain ⟨g1, g2, g3⟩ := cdpStep_leak_inv s e h1 h2 h3
    exact ih (cdpStep s e) g1 g2 g3

/-- **C5 (refuted by the code).** If a request is sent and the
connection closes before a response and before the 5 s timeout, then the
pending entry is gone (the `close` handler emptied the callback table)
but the request's promise is never settled by any later sequence of
responses, timeout firings, closes, sends, or reconnects — contradicting
the claim that every issued request is resolved, rejected, or timed out.
(After `close` the timeout body consults the reassigned
`cdpPendingCallbacks`, finds no entry, and never rejects.) -/
theorem C5_close_leaks_pending_promise (evs : List CdpEv) :
    (cdpRun (cdpStep (cdpStep cdpInit .send) .close) evs).status 1 =
      PStatus.unsettled ∧
    (cdpStep (cdpStep cdpInit .send) .close).pending = [] := by
  refine ⟨?_, rfl⟩
  refine cdpRun_leak _ evs ?_ ?_ rfl
  · simp [cdpStep, cdpInit]
  · simp [cdpStep, cdpInit]

/-! ## Per-target connection pool (part_002 v3.1.0, lines 1004-1090)

`cdpTargetPool` is a `Map<targetId, entry>`; we model it as an
association list with unique keys.  `cdpDiscoverAndConnect` first closes
and deletes every pooled entry whose id is not among the reported ids,
then connects every reported target that has a debugger URL, is not of
worker type, and is not yet pooled. -/

structure CdpTarget where
  id : String
  type : String
  title : String
  url : String
  webSocketDebuggerUrl : Option String
deriving DecidableEq, Repr

structure PoolEntry where
  title : String
  type : String
  wsOpen : Bool
deriving DecidableEq, Repr

abbrev Pool := List (String × PoolEntry)

def poolHas (pool : Pool) (id : String) : Bool :=
  pool.any (fun e => e.1 == id)

def poolKeys (pool : Pool) : List String :=
  pool.map Prod.fst

/-- JavaScript `a || b` on strings: empty is falsy. -/
def jsOrStr (a b : String) : String :=
  if a = "" then b else a

/-- `cdpConnectTarget` (lines 1004-1054): skip if already pooled; build
the entry; `new WebSocket(target.webSocketDebuggerUrl)` throws for a
missing URL (the function then returns without pooling); otherwise the
entry is stored under the target id. -/
def cdpConnectTarget (pool : Pool) (t : CdpTarget) : Pool :=
  if poolHas pool t.id then pool
  else
    match t.webSocketDebuggerUrl with
    | none => pool
    | some _ =>
        pool ++ [(t.id, { title := jsOrStr t.title (jsOrStr t.url t.id),
                          type := t.type, wsOpen := true })]

/-- The cleanup loop of `cdpDiscoverAndConnect`: delete every pooled
entry whose id is not reported (its WebSocket is closed first). -/
def cleanupVanished (pool : Pool) (liveIds : List String) : Pool :=
  pool.filter (fun e => liveIds.contains e.1)

/-- A target is connected by the discovery loop iff it has a debugger
URL and is not a worker. -/
def eligibleTarget (t : CdpTarget) : Bool :=
  t.webSocketDebuggerUrl.isSome && !(t.type == "worker" || t.type == "service_worker")

/-- The connect loop of `cdpDiscoverAndConnect` (lines 1071-1080). -/
def connectNew (pool : Pool) : List CdpTarget → Pool
  | [] => pool
  | t :: rest =>
    if t.webSocketDebuggerUrl.isNone then connectNew pool rest
    else if t.type == "worker" || t.type == "service_worker" then connectNew pool rest
    else if poolHas pool t.id then connectNew pool rest
    else connectNew (cdpConnectTarget pool t) rest

/-- One completed discovery cycle `cdpDiscoverAndConnect` (lines
1056-1090) over the reported target list. -/
def cdpDiscoverAndConnect (enabled enableCDP : Bool) (pool : Pool)
    (targets : List CdpTarget) : Pool :=
  if !enabled || !enableCDP then pool
  else
    let liveIds := targets.map CdpTarget.id
    let pool1 := cleanupVanished pool liveIds
    connectNew pool1 targets

theorem poolHas_iff (pool : Pool) (id : String) :
    poolHas pool id = true ↔ id ∈ poolKeys pool := by
  simp [poolHas, poolKeys, List.any_eq_true]

theorem cdpConnectTarget_keys (pool : Pool) (t : CdpTarget) (id : String) :
    id ∈ poolKeys (cdpConnectTarget pool t) ↔
      (id ∈ poolKeys pool ∨
       (t.webSocketDebuggerUrl.isSome = true ∧ poolHas pool t.id = false ∧ id = t.id)) := by
  unfold cdpConnectTarget
  split
  next hhas =>
    constructor
    · intro h
      exact Or.inl h
    · rintro (h | ⟨_, hno, _⟩)
      · exact h
      · rw [hhas] at hno
        cases hno
  next hhas =>
    have hhas2 : poolHas pool t.id = false := by
      revert hhas
      cases poolHas pool t.id <;> simp
    cases hurl : t.webSocketDebuggerUrl with
    | none => simp [hurl]
    | some u =>
      simp only [hurl, poolKeys, List.map_append, List.mem_append]
      constructor
      · rintro (h | h)
        · exact Or.inl h
        · refine Or.inr ⟨rfl, hhas2, ?_⟩
          simpa using h
      · rintro (h | ⟨_, _, rfl⟩)
        · exact Or.inl h
        · simp

theorem connectNew_keys (ts : List CdpTarget) (pool : Pool) (id : String) :
    id ∈ poolKeys (connectNew pool ts) ↔
      (id ∈ poolKeys pool ∨ ∃ t ∈ ts, eligibleTarget t = true ∧ t.id = id) := by
  induction ts generalizing pool with
  | nil => simp [connectNew]
  | cons t rest ih =>
    unfold connectNew
    split
    next hurl =>
      rw [ih]
      constructor
      · rintro (h | h)
        · exact Or.inl h
        · exact Or.inr (by
            obtain ⟨u, hu, he, hi⟩ := h
            exact ⟨u, List.mem_cons_of_mem t hu, he, hi⟩)
      · rintro (h | ⟨u, hu, he, hi⟩)
        · exact Or.inl h
        · rcases List.mem_cons.mp hu with rfl | hu2
          · exfalso
            rw [eligibleTarget] at he
            rw [Option.isNone_iff_eq_none] at hurl
            simp [hurl] at he
          · exact Or.inr ⟨u, hu2, he, hi⟩
    next hurl =>
      split
      next hworker =>
        rw [ih]
        constructor
        · rintro (h | ⟨u, hu, he, hi⟩)
          · exact Or.inl h
          · exact Or.inr ⟨u, List.mem_cons_of_mem t hu, he, hi⟩
        · rintro (h | ⟨u, hu, he, hi⟩)
          · exact Or.inl h
          · rcases List.mem_cons.mp hu with rfl | hu2
            · exfalso
              rw [eligibleTarget] at he
              simp [hworker] at he
            · exact Or.inr ⟨u, hu2, he, hi⟩
      next hworker =>
        split
        next hhas =>
          rw [ih]
          have hidmem : t.id ∈ poolKeys pool := (poolHas_iff pool t.id).mp hhas
          constructor
          · rintro (h | ⟨u, hu, he, hi⟩)
            · exact Or.inl h
            · exact Or.inr ⟨u, List.mem_cons_of_mem t hu, he, hi⟩
          · rintro (h | ⟨u, hu, he, hi⟩)
            · exact Or.inl h
            · rcases List.mem_cons.mp hu with rfl | hu2
              · exact Or.inl (hi ▸ hidmem)
              · exact Or.inr ⟨u, hu2, he, hi⟩
        next hhas =>
          rw [ih, cdpConnectTarget_keys]
          have hhas2 : poolHas pool t.id = false := by
            revert hhas
            cases poolHas pool t.id <;> simp
          have hurl2 : t.webSocketDebuggerUrl.isSome = true := by
            revert hurl
            cases t.webSocketDebuggerUrl <;> simp
          have helig : eligibleTarget t = true := by
            rw [eligibleTarget, hurl2]
            revert hworker
            cases (t.type == "worker" || t.type == "service_worker") <;> simp
          constructor
          · rintro ((h | ⟨_, _, rfl⟩) | ⟨u, hu, he, hi⟩)
            · exact Or.inl h
            · exact Or.inr ⟨t, List.mem_cons_self t rest, helig, rfl⟩
            · exact Or.inr ⟨u, List.mem_cons_of_mem t hu, he, hi⟩
          · rintro (h | ⟨u, hu, he, hi⟩)
            · exact Or.inl (Or.inl h)
            · rcases List.mem_cons.mp hu with rfl | hu2
              · exact Or.inl (Or.inr ⟨hurl2, hhas2, hi.symm⟩)
              · exact Or.inr ⟨u, hu2, he, hi⟩

theorem cleanupVanished_keys (pool : Pool) (liveIds : List String) (id : String) :
    id ∈ poolKeys (cleanupVanished pool liveIds) ↔
      (id ∈ poolKeys pool ∧ id ∈ liveIds) := by
  simp only [cleanupVanished, poolKeys, List.mem_map]
  constructor
  · rintro ⟨e, he, rfl⟩
    have hmem := List.mem_of_mem_filter he
    have hlive := List.of_mem_filter he
    simp only [List.elem_eq_mem, decide_eq_true_eq] at hlive
    exact ⟨⟨e, hmem, rfl⟩, hlive⟩
  · rintro ⟨⟨e, he, rfl⟩, hlive⟩
    refine ⟨e, List.mem_filter.mpr ⟨he, ?_⟩, rfl⟩
    simpa using hlive

/-- Key-set characterization of one discovery cycle: afterwards an id is
pooled iff it was pooled and is still reported, or it is the id of an
eligible reported target. -/
theorem cdpDiscoverAndConnect_keys (pool : Pool) (targets : List CdpTarget) (id : String) :
    id ∈ poolKeys (cdpDiscoverAndConnect true true pool targets) ↔
      ((id ∈ poolKeys pool ∧ id ∈ targets.map CdpTarget.id) ∨
       ∃ t ∈ targets, eligibleTarget t = true ∧ t.id = id) := by
  unfold cdpDiscoverAndConnect
  rw [if_neg (by simp)]
  rw [connectNew_keys, cleanupVanished_keys]

theorem poolHas_false_iff (pool : Pool) (id : String) :
    poolHas pool id = false ↔ id ∉ poolKeys pool := by
  rw [← poolHas_iff]
  cases poolHas pool id <;> simp

theorem cdpConnectTarget_nodup (pool : Pool) (t : CdpTarget)
    (h : (poolKeys pool).Nodup) : (poolKeys (cdpConnectTarget pool t)).Nodup := by
  unfold cdpConnectTarget
  split
  · exact h
  next hhas =>
    have hhas2 : poolHas pool t.id = false := by
      revert hhas
      cases poolHas pool t.id <;> simp
    have hnot : t.id ∉ poolKeys pool := (poolHas_false_iff pool t.id).mp hhas2
    cases t.webSocketDebuggerUrl with
    | none => exact h
    | some u =>
      simp only [poolKeys, List.map_append]
      rw [List.nodup_append]
      refine ⟨h, by simp, ?_⟩
      intro a ha hb
      simp only [List.map_cons, List.map_nil, List.mem_singleton] at hb
      subst hb
      exact hnot ha

theorem connectNew_nodup (ts : List CdpTarget) (pool : Pool)
    (h : (poolKeys pool).Nodup) : (poolKeys (connectNew pool ts)).Nodup := by
  induction ts generalizing pool with
  | nil => exact h
  | cons t rest ih =>
    unfold connectNew
    split
    · exact ih pool h
    · split
      · exact ih pool h
      · split
        · exact ih pool h
        · exact ih _ (cdpConnectTarget_nodup pool t h)

theorem cleanupVanished_nodup (pool : Pool) (liveIds : List String)
    (h : (poolKeys pool).Nodup) : (poolKeys (cleanupVanished pool liveIds)).Nodup := by
  unfold cleanupVanished poolKeys
  have hsub : ((pool.filter (fun e => liveIds.contains e.1)).map Prod.fst).Sublist
      (pool.map Prod.fst) := (List.filter_sublist pool).map Prod.fst
  exact h.sublist hsub

theorem mem_eligible_ids (targets : List CdpTarget) (id : String) :
    id ∈ (targets.filter eligibleTarget).map CdpTarget.id ↔
      ∃ t ∈ targets, eligibleTarget t = true ∧ t.id = id := by
  simp [List.mem_map, List.mem_filter]
  constructor
  · rintro ⟨t, ⟨ht, he⟩, rfl⟩
    exact ⟨t, ht, he, rfl⟩
  · rintro ⟨t, ht, he, rfl⟩
    exact ⟨t, ⟨ht, he⟩, rfl⟩

/-- A pool entry whose target is later re-reported with type `worker`:
the cleanup loop keeps it (its id is still reported) and the connect
loop skips it, so the pool key set no longer equals the eligible-id set. -/
def stalePoolC4 : Pool := [("a", { title := "old", type := "page", wsOpen := true })]

def staleReportC4 : List CdpTarget :=
  [{ id := "a", type := "worker", title := "w", url := "u",
     webSocketDebuggerUrl := some "ws" }]

/-- **C4 (counterexample).** After a discovery cycle over a report in
which a still-pooled id appears only as a worker-type target, the pool
keeps that entry although the eligible set is empty: the key set does
not equal the set of eligible reported ids. -/
theorem C4_counterexample_stale_worker_entry :
    poolKeys (cdpDiscoverAndConnect true true stalePoolC4 staleReportC4) = ["a"] ∧
    (staleReportC4.filter eligibleTarget).map CdpTarget.id = [] ∧
    ¬ (∀ id, id ∈ poolKeys (cdpDiscoverAndConnect true true stalePoolC4 staleReportC4) ↔
          id ∈ (staleReportC4.filter eligibleTarget).map CdpTarget.id) := by
  refine ⟨rfl, rfl, ?_⟩
  intro hall
  have h1 : "a" ∈ poolKeys (cdpDiscoverAndConnect true true stalePoolC4 staleReportC4) := by
    decide
  have h2 := (hall "a").mp h1
  revert h2
  decide

/-- **C4 (amended).** After any discovery cycle, an id is pooled iff it
is the id of an eligible reported target (one with a debugger URL and
not of worker/background type), provided every previously pooled id that
is still reported is reported as eligible; the vanished entries are
removed, and no target id ever has two pool entries. -/
theorem C4_pool_convergence_amended (pool : Pool) (targets : List CdpTarget)
    (hnd : (poolKeys pool).Nodup)
    (hstable : ∀ id, id ∈ poolKeys pool → id ∈ targets.map CdpTarget.id →
        id ∈ (targets.filter eligibleTarget).map CdpTarget.id) :
    (∀ id, id ∈ poolKeys (cdpDiscoverAndConnect true true pool targets) ↔
        id ∈ (targets.filter eligibleTarget).map CdpTarget.id) ∧
    (poolKeys (cdpDiscoverAndConnect true true pool targets)).Nodup := by
  constructor
  · intro id
    rw [cdpDiscoverAndConnect_keys, mem_eligible_ids]
    constructor
    · rintro (⟨hp, hr⟩ | h)
      · exact (mem_eligible_ids targets id).mp (hstable id hp hr)
      · exact h
    · intro h
      exact Or.inr h
  · unfold cdpDiscoverAndConnect
    rw [if_neg (by simp)]
    exact connectNew_nodup targets _ (cleanupVanished_nodup pool _ hnd)

def wPoolC4 : Pool := [("gone", { title := "old", type := "page", wsOpen := true })]

def wTargetsC4 : List CdpTarget :=
  [ { id := "t1", type := "page", title := "T1", url := "u1",
      webSocketDebuggerUrl := some "ws1" },
    { id := "t2", type := "worker", title := "T2", url := "u2",
      webSocketDebuggerUrl := some "ws2" },
    { id := "t3", type := "page", title := "T3", url := "u3",
      webSocketDebuggerUrl := none } ]

/-- Witness for the amended C4: a vanished entry is dropped, the eligible
page target is pooled, the worker-type and URL-less targets are not, and
the keys are duplicate-free. -/
theorem C4_pool_convergence_amended_witness :
    ("t1" ∈ poolKeys (cdpDiscoverAndConnect true true wPoolC4 wTargetsC4) ↔
       "t1" ∈ (wTargetsC4.filter eligibleTarget).map CdpTarget.id) ∧
    ("gone" ∈ poolKeys (cdpDiscoverAndConnect true true wPoolC4 wTargetsC4) ↔
       "gone" ∈ (wTargetsC4.filter eligibleTarget).map CdpTarget.id) ∧
    (poolKeys (cdpDiscoverAndConnect true true wPoolC4 wTargetsC4)).Nodup := by
  have hstable : ∀ id, id ∈ poolKeys wPoolC4 → id ∈ wTargetsC4.map CdpTarget.id →
      id ∈ (wTargetsC4.filter eligibleTarget).map CdpTarget.id := by
    intro id h1 h2
    have hid : id = "gone" := by simpa [wPoolC4, poolKeys] using h1
    subst hid
    revert h2
    decide
  have h := C4_pool_convergence_amended wPoolC4 wTargetsC4 (by decide) hstable
  exact ⟨h.1 "t1", h.1 "gone", h.2⟩

/-! ## The injected accept script (part_002 v3.1.0, lines 1115-1134)

`CDP_ACCEPT_SCRIPT` iterates the document's buttons; a button is clicked
when its trimmed text matches the anchored case-insensitive regex
`^(Run|Accept|Accept All|Allow|Allow Once|Allow This Conversation|Yes)/i`,
it is rendered (`offsetParent !== null`), not disabled, and not within
the 5000 ms cooldown recorded in `dataset.yoloClicked`; clicking stamps
the dataset with the current time.  Characters are modelled over
`List Char` (the labels of interest are ASCII). -/

/-- ASCII whitespace removed by JavaScript `String.prototype.trim`. -/
def isTrimWs (c : Char) : Bool :=
  c == ' ' || c == '\t' || c == '\n' || c == '\r' ||
  c == Char.ofNat 12 || c == Char.ofNat 11

def dropLeadingWs : List Char → List Char
  | [] => []
  | c :: cs => if isTrimWs c then dropLeadingWs cs else c :: cs

/-- `text.trim()`: strip leading and trailing whitespace. -/
def trimChars (l : List Char) : List Char :=
  (dropLeadingWs (dropLeadingWs l).reverse).reverse

def charsPrefixOf : List Char → List Char → Bool
  | [], _ => true
  | _ :: _, [] => false
  | c :: cs, d :: ds => c == d && charsPrefixOf cs ds

/-- The alternatives of the anchored accept regex, in source order. -/
def ACCEPT_BUTTON_PHRASES : List String :=
  ["Run", "Accept", "Accept All", "Allow", "Allow Once",
   "Allow This Conversation", "Yes"]

/-- The regex test of the script: case-insensitive prefix match of one
of the accept phrases against the trimmed button text. -/
def matchesAccept (text : String) : Bool :=
  ACCEPT_BUTTON_PHRASES.any (fun p =>
    charsPrefixOf (p.data.map Char.toLower) ((trimChars text.data).map Char.toLower))

/-- One `<button>` as the script sees it: its text content, whether it
is rendered (`offsetParent !== null`), its `disabled` flag, and the
`dataset.yoloClicked` timestamp if any. -/
structure DomButton where
  text : String
  rendered : Bool
  disabled : Bool
  yoloClicked : Option Nat
deriving DecidableEq, Repr

/-- `btn.dataset.yoloClicked && Date.now() - parseInt(...) < 5000`:
unset dataset is falsy; otherwise the signed difference is compared. -/
def buttonOnCooldown (b : DomButton) (now : Nat) : Bool :=
  match b.yoloClicked with
  | some t => decide (((now : Int) - (t : Int)) < 5000)
  | none => false

/-- The script's per-button guards, in source order. -/
def buttonEligible (b : DomButton) (now : Nat) : Bool :=
  matchesAccept b.text && b.rendered && !b.disabled && !buttonOnCooldown b now

/-- One evaluation of `CDP_ACCEPT_SCRIPT` at time `now`: returns the
number of clicked buttons and the buttons with their updated
`dataset.yoloClicked` stamps. -/
def evalAcceptScript (now : Nat) : List DomButton → Nat × List DomButton
  | [] => (0, [])
  | b :: rest =>
    if buttonEligible b now then
      ((evalAcceptScript now rest).1 + 1,
       { b with yoloClicked := some now } :: (evalAcceptScript now rest).2)
    else
      ((evalAcceptScript now rest).1, b :: (evalAcceptScript now rest).2)

theorem evalAcceptScript_append (now : Nat) (xs ys : List DomButton) :
    evalAcceptScript now (xs ++ ys) =
      ((evalAcceptScript now xs).1 + (evalAcceptScript now ys).1,
       (evalAcceptScript now xs).2 ++ (evalAcceptScript now ys).2) := by
  induction xs with
  | nil => simp [evalAcceptScript]
  | cons b rest ih =>
    rw [List.cons_append]
    simp only [evalAcceptScript, ih]
    split
    · rw [Prod.mk.injEq]
      exact ⟨by omega, by simp⟩
    · rw [Prod.mk.injEq]
      exact ⟨rfl, by simp⟩

/-- **C7.** A control activated at time `T` (its cooldown stamp is `T`)
is skipped — neither clicked nor restamped — by every script evaluation
strictly before `T + 5000`; an evaluation at `T + 5000` or later finds
it eligible again provided it still matches, is rendered, and is not
disabled, and then clicks and restamps exactly that control. -/
theorem C7_cooldown_property (b : DomButton) (T now : Nat)
    (pre post : List DomButton) (hT : b.yoloClicked = some T) :
    (now < T + 5000 →
       buttonEligible b now = false ∧
       evalAcceptScript now (pre ++ b :: post) =
         ((evalAcceptScript now pre).1 + (evalAcceptScript now post).1,
          (evalAcceptScript now pre).2 ++ b :: (evalAcceptScript now post).2)) ∧
    (T + 5000 ≤ now →
       matchesAccept b.text = true → b.rendered = true → b.disabled = false →
       buttonEligible b now = true ∧
       evalAcceptScript now (pre ++ b :: post) =
         ((evalAcceptScript now pre).1 + ((evalAcceptScript now post).1 + 1),
          (evalAcceptScript now pre).2 ++
            { b with yoloClicked := some now } :: (evalAcceptScript now post).2)) := by
  constructor
  · intro hlt
    have hcool : buttonOnCooldown b now = true := by
      rw [buttonOnCooldown, hT]
      simp only [decide_eq_true_eq]
      omega
    have helig : buttonEligible b now = false := by
      rw [buttonEligible, hcool]
      simp
    refine ⟨helig, ?_⟩
    rw [evalAcceptScript_append]
    have hcons : evalAcceptScript now (b :: post) =
        ((evalAcceptScript now post).1, b :: (evalAcceptScript now post).2) := by
      simp [evalAcceptScript, helig]
    rw [hcons]
  · intro hge hm hr hd
    have hcool : buttonOnCooldown b now = false := by
      rw [buttonOnCooldown, hT]
      simp only [decide_eq_false_iff_not]
      omega
    have helig : buttonEligible b now = true := by
      rw [buttonEligible, hcool, hm, hr, hd]
      rfl
    refine ⟨helig, ?_⟩
    rw [evalAcceptScript_append]
    have hcons : evalAcceptScript now (b :: post) =
        ((evalAcceptScript now post).1 + 1,
         { b with yoloClicked := some now } :: (evalAcceptScript now post).2) := by
      simp [evalAcceptScript, helig]
    rw [hcons]

def bC7 : DomButton := { text := "Run", rendered := true, disabled := false,
                         yoloClicked := some 1000 }

/-- Witness for C7: a "Run" button stamped at t=1000 is skipped at
t=2000 and clicked again at t=6000. -/
theorem C7_cooldown_property_witness :
    (buttonEligible bC7 2000 = false ∧
     evalAcceptScript 2000 ([] ++ bC7 :: []) =
       ((evalAcceptScript 2000 []).1 + (evalAcceptScript 2000 []).1,
        (evalAcceptScript 2000 []).2 ++ bC7 :: (evalAcceptScript 2000 []).2)) ∧
    (buttonEligible bC7 6000 = true ∧
     evalAcceptScript 6000 ([] ++ bC7 :: []) =
       ((evalAcceptScript 6000 []).1 + ((evalAcceptScript 6000 []).1 + 1),
        (evalAcceptScript 6000 []).2 ++
          { bC7 with yoloClicked := some 6000 } :: (evalAcceptScript 6000 []).2)) :=
  ⟨(C7_cooldown_property bC7 1000 2000 [] [] rfl).1 (by omega),
   (C7_cooldown_property bC7 1000 6000 [] [] rfl).2 (by omega) (by decide) rfl rfl⟩

/-! ## stripJsonComments (extension.js v3.0.0 lines 83-114; part_002 v3.1.0 lines 832-862)

Both versions run the same character loop (`inString` / `escape` state,
`//` outside strings skipped to end of line and replaced by one
newline); the v3.1.0 variant afterwards applies
`result.replace(/,(\s*[}\]])/g, '$1')`, which removes a comma followed
by whitespace and a closing brace/bracket — anywhere, strings included. -/

def quoteChar : Char := '\x22'

def backslashChar : Char := '\\'

/-- `while (i < text.length && text[i] !== '\n') i++` followed by the
loop's own `i++`: drop everything up to and including the next newline. -/
def dropLine : List Char → List Char
  | [] => []
  | c :: cs => if c = '\n' then cs else dropLine cs

theorem dropLine_length_le (l : List Char) : (dropLine l).length ≤ l.length := by
  induction l with
  | nil => simp [dropLine]
  | cons c cs ih =>
    rw [dropLine]
    split
    · simp
    · have h2 : (c :: cs).length = cs.length + 1 := rfl
      omega

/-- The character loop shared by both versions of `stripJsonComments`,
with the `inString` and `escape` flags explicit. -/
def stripAux (inString escape : Bool) : List Char → List Char
  | [] => []
  | c :: cs =>
    if escape then c :: stripAux inString false cs
    else if c = backslashChar && inString then c :: stripAux inString true cs
    else if c = quoteChar then c :: stripAux (!inString) false cs
    else if !inString && c = '/' && (cs.head? == some '/') then
      '\n' :: stripAux inString false (dropLine cs)
    else c :: stripAux inString false cs
termination_by l => l.length
decreasing_by
  · simp_wf
  · simp_wf
  · simp_wf
  · simp_wf
    have := dropLine_length_le cs
    have h2 : (c :: cs).length = cs.length + 1 := rfl
    omega
  · simp_wf

/-- `stripJsonComments` of extension.js v3.0.0 (lines 83-114). -/
def stripJsonComments (l : List Char) : List Char :=
  stripAux false false l

/-- Greedy run of regex-`\s` whitespace (ASCII part). -/
def wsSpan : List Char → List Char × List Char
  | [] => ([], [])
  | c :: cs =>
    if isTrimWs c then ((wsSpan cs).1.cons c, (wsSpan cs).2)
    else ([], c :: cs)

theorem wsSpan_append (l : List Char) : (wsSpan l).1 ++ (wsSpan l).2 = l := by
  induction l with
  | nil => rfl
  | cons c cs ih =>
    rw [wsSpan]
    split
    · simpa using ih
    · rfl

theorem wsSpan_length (l : List Char) :
    (wsSpan l).1.length + (wsSpan l).2.length = l.length := by
  have h := congrArg List.length (wsSpan_append l)
  simpa using h

/-- `result.replace(/,(\s*[}\]])/g, '$1')`: scan left to right; at a
comma followed by whitespace and then `}` or `]`, emit only the
whitespace and the bracket and resume after the match. -/
def stripTrailingCommas : List Char → List Char
  | [] => []
  | c :: cs =>
    if c = ',' then
      match hr : (wsSpan cs).2 with
      | b :: rest =>
        if b = '}' ∨ b = ']' then (wsSpan cs).1 ++ b :: stripTrailingCommas rest
        else c :: stripTrailingCommas cs
      | [] => c :: stripTrailingCommas cs
    else c :: stripTrailingCommas cs
termination_by l => l.length
decreasing_by
  · simp_wf
    have h1 := wsSpan_length cs
    have h2 : (wsSpan cs).2.length = rest.length + 1 := by rw [hr]; rfl
    have h3 : (c :: cs).length = cs.length + 1 := rfl
    omega
  · simp_wf
  · simp_wf
  · simp_wf

/-- `stripJsonComments` of part_002 v3.1.0 (lines 832-862): the same
loop followed by the trailing-comma regex replacement. -/
def stripJsonCommentsV310 (l : List Char) : List Char :=
  stripTrailingCommas (stripAux false false l)

theorem stripAux_nil (inString escape : Bool) : stripAux inString escape [] = [] := by
  rw [stripAux]

theorem stripAux_cons (inString escape : Bool) (c : Char) (cs : List Char) :
    stripAux inString escape (c :: cs) =
      if escape then c :: stripAux inString false cs
      else if c = backslashChar && inString then c :: stripAux inString true cs
      else if c = quoteChar then c :: stripAux (!inString) false cs
      else if !inString && c = '/' && (cs.head? == some '/') then
        '\n' :: stripAux inString false (dropLine cs)
      else c :: stripAux inString false cs := by
  rw [stripAux.eq_def]

/-- The characters between the quotes of a well-formed JSON-style string
literal: a backslash is always followed by one (arbitrary) escaped
character, and an unescaped quote never occurs. -/
def isStringBody : List Char → Bool
  | [] => true
  | c :: cs =>
    if c = backslashChar then
      match cs with
      | [] => false
      | _ :: cs2 => isStringBody cs2
    else if c = quoteChar then false
    else isStringBody cs

theorem isStringBody_esc (c : Char) (cs : List Char) :
    isStringBody (backslashChar :: c :: cs) = isStringBody cs := by
  rw [isStringBody.eq_def]
  simp

theorem isStringBody_other (c : Char) (cs : List Char)
    (h1 : c ≠ backslashChar) (h2 : c ≠ quoteChar) :
    isStringBody (c :: cs) = isStringBody cs := by
  rw [isStringBody.eq_def]
  simp [h1, h2]

/-- Inside a string (`inString = true`, no pending escape), a
well-formed body followed by the closing quote is copied verbatim and
scanning resumes out-of-string. -/
theorem stripAux_string_body (body : List Char) :
    ∀ (rest : List Char), isStringBody body = true →
      stripAux true false (body ++ quoteChar :: rest) =
        body ++ quoteChar :: stripAux false false rest := by
  induction body using isStringBody.induct with
  | case1 =>
    intro rest _
    have hqb : quoteChar ≠ backslashChar := by decide
    simp [stripAux_cons, hqb]
  | case2 =>
    intro rest h
    rw [isStringBody.eq_def] at h
    simp at h
  | case3 head cs2 ih =>
    intro rest h
    rw [isStringBody_esc] at h
    simp only [List.cons_append]
    simp [stripAux_cons, ih rest h]
  | case4 cs2 hne =>
    intro rest h
    rw [isStringBody.eq_def] at h
    simp [backslashChar, quoteChar] at h
  | case5 head cs2 h1 h2 ih =>
    intro rest h
    rw [isStringBody_other head cs2 h1 h2] at h
    simp only [List.cons_append]
    simp [stripAux_cons, h1, h2, ih rest h]

theorem dropLine_no_newline (l : List Char) (rest : List Char)
    (h : '\n' ∉ l) : dropLine (l ++ '\n' :: rest) = rest := by
  induction l with
  | nil =>
    rw [List.nil_append, dropLine]
    simp
  | cons c cs ih =>
    rw [List.cons_append, dropLine]
    have hc : c ≠ '\n' := fun he => h (he ▸ List.mem_cons_self c cs)
    rw [if_neg hc]
    exact ih (fun hm => h (List.mem_cons_of_mem c hm))

/-- **C10.** The extension.js `stripJsonComments` (a) copies a complete
double-quoted string literal verbatim — `//` inside it is not removed
and an escaped quote does not terminate it — resuming out-of-string
afterwards; (b) outside string literals it replaces each `//` comment
up to and including its line's newline with a single newline; (c) it
leaves every other character unchanged. -/
theorem C10_stripJsonComments_literals_and_comments :
    (∀ (body rest : List Char), isStringBody body = true →
       stripJsonComments (quoteChar :: (body ++ quoteChar :: rest)) =
         quoteChar :: (body ++ quoteChar :: stripJsonComments rest)) ∧
    (∀ (comment rest : List Char), '\n' ∉ comment →
       stripJsonComments ('/' :: '/' :: (comment ++ '\n' :: rest)) =
         '\n' :: stripJsonComments rest) ∧
    (∀ (c : Char) (cs : List Char), c ≠ quoteChar →
       ¬(c = '/' ∧ cs.head? = some '/') →
       stripJsonComments (c :: cs) = c :: stripJsonComments cs) := by
  refine ⟨?_, ?_, ?_⟩
  · intro body rest h
    unfold stripJsonComments
    have hqb : quoteChar ≠ backslashChar := by decide
    simp [stripAux_cons, hqb, stripAux_string_body body rest h]
  · intro comment rest h
    unfold stripJsonComments
    have hsb : ('/' : Char) ≠ backslashChar := by decide
    have hsq : ('/' : Char) ≠ quoteChar := by decide
    simp [stripAux_cons, dropLine, hsb, hsq, dropLine_no_newline comment rest h]
  · intro c cs hq hcom
    unfold stripJsonComments
    have hcom2 : (!false && c = '/' && (cs.head? == some '/')) = false := by
      rcases Classical.em (c = '/') with hc | hc
      · subst hc
        cases hhh : (cs.head? == some '/') with
        | true =>
          exact absurd ⟨rfl, by simpa using hhh⟩ hcom
        | false => simp [hhh]
      · simp [hc]
    simp only [stripAux_cons, Bool.false_eq_true, if_false, Bool.and_false, hcom2,
      if_neg hq]

/-- Witness for C10: a literal containing `//` and an escaped quote is
copied verbatim; a comment becomes one newline; a lone `/` and other
characters pass through. -/
theorem C10_stripJsonComments_witness :
    (stripJsonComments
        (quoteChar :: (['a', '/', '/', backslashChar, quoteChar] ++ quoteChar :: ['x'])) =
      quoteChar :: (['a', '/', '/', backslashChar, quoteChar] ++
        quoteChar :: stripJsonComments ['x'])) ∧
    (stripJsonComments ('/' :: '/' :: (['h', 'i'] ++ '\n' :: ['z'])) =
      '\n' :: stripJsonComments ['z']) ∧
    (stripJsonComments ('x' :: ['/']) = 'x' :: stripJsonComments ['/']) :=
  ⟨C10_stripJsonComments_literals_and_comments.1
      ['a', '/', '/', backslashChar, quoteChar] ['x'] (by decide),
   C10_stripJsonComments_literals_and_comments.2.1 ['h', 'i'] ['z'] (by decide),
   C10_stripJsonComments_literals_and_comments.2.2 'x' ['/'] (by decide) (by decide)⟩

/-- A comment-free input whose only string literal contains `,}`. -/
def inpC10 : List Char :=
  ['{', quoteChar, 'x', quoteChar, ':', quoteChar, ',', '}', quoteChar, '}']

/-- **C10 (counterexample for the v3.1.0 variant).** The part_002
`stripJsonComments` additionally runs the trailing-comma regex over the
whole text, strings included: on input `{"x":",}"}` (no comment
anywhere) it deletes the comma inside the string literal, so it does not
leave string-literal contents (nor non-comment characters) unchanged. -/
theorem C10_counterexample_v310_comma_in_string :
    stripJsonCommentsV310 inpC10 =
      ['{', quoteChar, 'x', quoteChar, ':', quoteChar, '}', quoteChar, '}'] ∧
    '/' ∉ inpC10 ∧
    stripJsonCommentsV310 inpC10 ≠ inpC10 := by
  have h1 : stripJsonCommentsV310 inpC10 =
      ['{', quoteChar, 'x', quoteChar, ':', quoteChar, '}', quoteChar, '}'] := by
    have h0 : stripAux false false inpC10 = inpC10 := by
      simp [inpC10, stripAux_cons, stripAux_nil, quoteChar, backslashChar]
    unfold stripJsonCommentsV310
    rw [h0]
    simp [inpC10, stripTrailingCommas, wsSpan, isTrimWs, quoteChar]
  refine ⟨h1, by decide, ?_⟩
  rw [h1]
  decide

/-! ## A model of `JSON.parse` (ECMA-404 JSON), fuel-indexed

`ensureDebugPort` parses the launch-configuration file with
`JSON.parse(stripJsonComments(rawContent))`.  The parser below follows
the JSON grammar: values are objects, arrays, strings, numbers, `true`,
`false`, `null`; numbers keep their decimal digits unevaluated (ports
are integers; only zero-ness matters for truthiness). -/

inductive Json
  | jnull
  | jbool (b : Bool)
  | jnum (neg : Bool) (intDigits fracDigits : List Nat) (expNeg : Bool) (expDigits : List Nat)
  | jstr (s : List Char)
  | jarr (elems : List Json)
  | jobj (fields : List (List Char × Json))
deriving Repr

/-- JSON whitespace. -/
def skipWsJ : List Char → List Char
  | [] => []
  | c :: cs =>
    if c = ' ' ∨ c = '\t' ∨ c = '\n' ∨ c = '\r' then skipWsJ cs else c :: cs

def hexDigitVal (c : Char) : Option Nat :=
  if '0' ≤ c ∧ c ≤ '9' then some (c.toNat - 48)
  else if 'a' ≤ c ∧ c ≤ 'f' then some (c.toNat - 87)
  else if 'A' ≤ c ∧ c ≤ 'F' then some (c.toNat - 55)
  else none

def digitVal (c : Char) : Option Nat :=
  if '0' ≤ c ∧ c ≤ '9' then some (c.toNat - 48) else none

/-- Parse the body of a string literal after the opening quote; returns
the decoded characters and the input after the closing quote. -/
def parseStringBody : Nat → List Char → Option (List Char × List Char)
  | 0, _ => none
  | _ + 1, [] => none
  | fuel + 1, c :: cs =>
    if c = quoteChar then some ([], cs)
    else if c = backslashChar then
      match cs with
      | [] => none
      | e :: cs2 =>
        if e = quoteChar then
          (parseStringBody fuel cs2).map (fun r => (quoteChar :: r.1, r.2))
        else if e = backslashChar then
          (parseStringBody fuel cs2).map (fun r => (backslashChar :: r.1, r.2))
        else if e = '/' then (parseStringBody fuel cs2).map (fun r => ('/' :: r.1, r.2))
        else if e = 'b' then
          (parseStringBody fuel cs2).map (fun r => (Char.ofNat 8 :: r.1, r.2))
        else if e = 'f' then
          (parseStringBody fuel cs2).map (fun r => (Char.ofNat 12 :: r.1, r.2))
        else if e = 'n' then (parseStringBody fuel cs2).map (fun r => ('\n' :: r.1, r.2))
        else if e = 'r' then (parseStringBody fuel cs2).map (fun r => ('\r' :: r.1, r.2))
        else if e = 't' then (parseStringBody fuel cs2).map (fun r => ('\t' :: r.1, r.2))
        else if e = 'u' then
          match cs2 with
          | h1 :: h2 :: h3 :: h4 :: cs3 =>
            match hexDigitVal h1, hexDigitVal h2, hexDigitVal h3, hexDigitVal h4 with
            | some a, some b, some c2, some d =>
              (parseStringBody fuel cs3).map
                (fun r => (Char.ofNat (a * 4096 + b * 256 + c2 * 16 + d) :: r.1, r.2))
            | _, _, _, _ => none
          | _ => none
        else none
    else if c.toNat < 32 then none
    else (parseStringBody fuel cs).map (fun r => (c :: r.1, r.2))

/-- Greedy run of decimal digits. -/
def spanDigits : List Char → List Nat × List Char
  | [] => ([], [])
  | c :: cs =>
    match digitVal c with
    | some d => ((spanDigits cs).1.cons d, (spanDigits cs).2)
    | none => ([], c :: cs)

/-- The JSON `int` production: `0`, or a nonzero digit followed by more
digits (leading zeros are not part of the grammar). -/
def parseIntPart : List Char → Option (List Nat × List Char)
  | [] => none
  | c :: cs =>
    match digitVal c with
    | none => none
    | some 0 => some ([0], cs)
    | some d => some (d :: (spanDigits cs).1, (spanDigits cs).2)

/-- The optional `frac` production: `.` followed by at least one digit. -/
def parseFracPart : List Char → Option (List Nat × List Char)
  | c :: cs =>
    if c = '.' then
      match spanDigits cs with
      | ([], _) => none
      | (ds, rest) => some (ds, rest)
    else some ([], c :: cs)
  | [] => some ([], [])

/-- The optional `exp` production: `e`/`E`, optional sign, digits. -/
def parseExpPart : List Char → Option (Bool × List Nat × List Char)
  | c :: cs =>
    if c = 'e' ∨ c = 'E' then
      let signed : Bool × List Char :=
        match cs with
        | d :: ds => if d = '+' then (false, ds) else if d = '-' then (true, ds) else (false, cs)
        | [] => (false, [])
      match spanDigits signed.2 with
      | ([], _) => none
      | (ds, rest) => some (signed.1, ds, rest)
    else some (false, [], c :: cs)
  | [] => some (false, [], [])

def parseNumber (l : List Char) : Option (Json × List Char) :=
  let signed : Bool × List Char :=
    match l with
    | c :: cs => if c = '-' then (true, cs) else (false, l)
    | [] => (false, [])
  match parseIntPart signed.2 with
  | none => none
  | some (ints, l2) =>
    match parseFracPart l2 with
    | none => none
    | some (fracs, l3) =>
      match parseExpPart l3 with
      | none => none
      | some (eneg, eds, l4) => some (.jnum signed.1 ints fracs eneg eds, l4)

/-- Parse a fixed keyword (`true` / `false` / `null`). -/
def parseLit (word : List Char) (v : Json) (l : List Char) : Option (Json × List Char) :=
  if charsPrefixOf word l then some (v, l.drop word.length) else none

mutual

def parseValue : Nat → List Char → Option (Json × List Char)
  | 0, _ => none
  | fuel + 1, l =>
    match skipWsJ l with
    | [] => none
    | c :: cs =>
      if c = quoteChar then
        match parseStringBody cs.length cs with
        | some (s, rest) => some (.jstr s, rest)
        | none => none
      else if c = '{' then
        match skipWsJ cs with
        | '}' :: rest => some (.jobj [], rest)
        | cs2 => (parseMembers fuel cs2).map (fun r => (.jobj r.1, r.2))
      else if c = '[' then
        match skipWsJ cs with
        | ']' :: rest => some (.jarr [], rest)
        | cs2 => (parseElems fuel cs2).map (fun r => (.jarr r.1, r.2))
      else if c = 't' then parseLit ['t', 'r', 'u', 'e'] (.jbool true) (c :: cs)
      else if c = 'f' then parseLit ['f', 'a', 'l', 's', 'e'] (.jbool false) (c :: cs)
      else if c = 'n' then parseLit ['n', 'u', 'l', 'l'] .jnull (c :: cs)
      else parseNumber (c :: cs)

def parseMembers : Nat → List Char → Option (List (List Char × Json) × List Char)
  | 0, _ => none
  | fuel + 1, l =>
    match skipWsJ l with
    | [] => none
    | c :: cs =>
      if c = quoteChar then
        match parseStringBody cs.length cs with
        | none => none
        | some (key, rest) =>
          match skipWsJ rest with
          | ':' :: rest2 =>
            match parseValue fuel rest2 with
            | none => none
            | some (v, rest3) =>
              match skipWsJ rest3 with
              | ',' :: rest4 =>
                (parseMembers fuel rest4).map (fun r => ((key, v) :: r.1, r.2))
              | '}' :: rest4 => some ([(key, v)], rest4)
              | _ => none
          | _ => none
      else none

def parseElems : Nat → List Char → Option (List Json × List Char)
  | 0, _ => none
  | fuel + 1, l =>
    match parseValue fuel l with
    | none => none
    | some (v, rest) =>
      match skipWsJ rest with
      | ',' :: rest2 => (parseElems fuel rest2).map (fun r => (v :: r.1, r.2))
      | ']' :: rest2 => some ([v], rest2)
      | _ => none

end

/-- `JSON.parse`: a single value, then only whitespace. -/
def jsonParse (l : List Char) : Option Json :=
  match parseValue (l.length + 1) l with
  | some (v, rest) => if (skipWsJ rest).isEmpty then some v else none
  | none => none


def jsonTruthy : Json → Bool
  | .jnull => false
  | .jbool b => b
  | .jnum _ ints fracs _ _ => ints.any (fun d => d ≠ 0) || fracs.any (fun d => d ≠ 0)
  | .jstr s => !s.isEmpty
  | .jarr _ => true
  | .jobj _ => true

/-- JavaScript object lookup: a later duplicate key overwrites an
earlier one. -/
def lookupLast (fields : List (List Char × Json)) (key : List Char) : Option Json :=
  match fields with
  | [] => none
  | (k, v) :: rest =>
    match lookupLast rest key with
    | some v2 => some v2
    | none => if k = key then some v else none

/-- `data['remote-debugging-port']` followed by the truthiness test of
`if (data[...])`; property access on `null` throws (caught by the outer
try). -/
def indexTruthy : Json → List Char → Except Unit (Option Json)
  | .jnull, _ => .error ()
  | .jobj fields, key =>
    .ok (match lookupLast fields key with
         | some v => if jsonTruthy v then some v else none
         | none => none)
  | _, _ => .ok none

def portKey : List Char := "remote-debugging-port".data

/-! ## argv.json bootstrap (part_002 v3.1.0, lines 864-953) -/

def findAvailablePortLoop (occupied : Nat → Bool) : Nat → Nat → Option Nat
  | _, 0 => none
  | port, k + 1 =>
    if occupied port then findAvailablePortLoop occupied (port + 1) k
    else some port

/-- `findAvailablePort` (lines 874-884): probe `startPort` through
`startPort + 6`; the first free port wins, else fall back to
`startPort`.  `occupied` abstracts the `isPortInUse` probe. -/
def findAvailablePort (startPort : Nat) (occupied : Nat → Bool) : Nat :=
  (findAvailablePortLoop occupied startPort 7).getD startPort

/-- `rawContent.lastIndexOf('}')` together with the two `substring`
calls: split the text at its last `}` (the suffix starts with it). -/
def lastBraceSplit : List Char → Option (List Char × List Char)
  | [] => none
  | c :: cs =>
    match lastBraceSplit cs with
    | some (b, a) => some (c :: b, a)
    | none => if c = '}' then some ([], c :: cs) else none

/-- `trimEnd()`. -/
def trimEndChars (l : List Char) : List Char :=
  (dropLeadingWs l.reverse).reverse

/-- `/["\d\w\]}\-]/.test(before[before.length - 1])`.  On the empty
string, `before[-1]` is `undefined` and the regex is tested against the
string `"undefined"`, which contains word characters — hence `true`. -/
def needsCommaAfter (before : List Char) : Bool :=
  match before.getLast? with
  | some c =>
    c == quoteChar || c.isDigit || c.isAlpha || c == '_' || c == ']' || c == '}' || c == '-'
  | none => true

def natDigits (n : Nat) : List Char := Nat.toDigits 10 n

/-- The inserted text `"remote-debugging-port": <port>`. -/
def portAssignment (port : Nat) : List Char :=
  quoteChar :: "remote-debugging-port".data ++ quoteChar :: ':' :: ' ' :: natDigits port

/-- The inserted line `\n    "remote-debugging-port": <port>\n`. -/
def portLine (port : Nat) : List Char :=
  '\n' :: ' ' :: ' ' :: ' ' :: ' ' :: portAssignment port ++ ['\n']

/-- The fresh file `{\n    "remote-debugging-port": <port>\n}\n`. -/
def jsonSkeleton (port : Nat) : List Char :=
  '{' :: portLine port ++ ['}', '\n']

/-- `insertPortIntoArgv` (lines 886-895). -/
def insertPortIntoArgv (raw : List Char) (port : Nat) : List Char :=
  match lastBraceSplit raw with
  | none => jsonSkeleton port
  | some (before0, after) =>
    let before := trimEndChars before0
    before ++ (if needsCommaAfter before then [','] else []) ++ (portLine port ++ after)

/-- The outcome of one `ensureDebugPort` call: the returned value, the
file content written (if any), and whether the `catch` branch ran. -/
structure EnsureResult where
  result : Option Json
  written : Option (List Char)
  errored : Bool
deriving Repr

/-- `ensureDebugPort` (part_002 v3.1.0, lines 904-953).  `file` is the
argv.json content when the file exists.  When the file is absent the
parse is skipped and `data` stays `{}`; a parse failure (or indexing
into `null`) is caught, logged, and yields `null`; a configured truthy
port is returned as-is without writing; otherwise the first free port
starting at the preferred one is inserted into the raw text (or a fresh
skeleton is written when there was no content) and `null` is returned,
the restart still pending. -/
def ensureDebugPort (preferred : Nat) (file : Option (List Char))
    (occupied : Nat → Bool) : EnsureResult :=
  match file with
  | none =>
    let port := findAvailablePort preferred occupied
    { result := none, written := some (jsonSkeleton port), errored := false }
  | some raw =>
    match jsonParse (stripJsonCommentsV310 raw) with
    | none => { result := none, written := none, errored := true }
    | some data =>
      match indexTruthy data portKey with
      | .error _ => { result := none, written := none, errored := true }
      | .ok (some v) => { result := some v, written := none, errored := false }
      | .ok none =>
        let port := findAvailablePort preferred occupied
        if raw.isEmpty then
          { result := none, written := some (jsonSkeleton port), errored := false }
        else
          { result := none, written := some (insertPortIntoArgv raw port), errored := false }

theorem insertPortIntoArgv_contains (raw : List Char) (port : Nat) :
    ∃ A B, insertPortIntoArgv raw port = A ++ (portAssignment port ++ B) := by
  unfold insertPortIntoArgv
  match h : lastBraceSplit raw with
  | none =>
    refine ⟨['{', '\n', ' ', ' ', ' ', ' '], '\n' :: ['}', '\n'], ?_⟩
    simp [jsonSkeleton, portLine]
  | some (b, a) =>
    refine ⟨trimEndChars b ++ (if needsCommaAfter (trimEndChars b) then [','] else []) ++
      ['\n', ' ', ' ', ' ', ' '], '\n' :: a, ?_⟩
    simp [portLine]

/-- **C8.** When the launch-configuration file parses but lacks (a
truthy) `remote-debugging-port` and the preferred port is occupied while
the next port is free, `ensureDebugPort` returns `null` (the remote path
stays inactive until restart) and rewrites the file through
`insertPortIntoArgv` with the fallback port `preferred + 1`, so the
written text contains `"remote-debugging-port": <preferred + 1>`. -/
theorem C8_port_fallback (preferred : Nat) (raw : List Char) (occupied : Nat → Bool)
    (o : Json)
    (hparse : jsonParse (stripJsonCommentsV310 raw) = some o)
    (hkey : indexTruthy o portKey = .ok none)
    (hraw : raw ≠ [])
    (hocc : occupied preferred = true)
    (hfree : occupied (preferred + 1) = false) :
    findAvailablePort preferred occupied = preferred + 1 ∧
    (ensureDebugPort preferred (some raw) occupied).result = none ∧
    (ensureDebugPort preferred (some raw) occupied).written =
      some (insertPortIntoArgv raw (preferred + 1)) ∧
    ∃ A B, insertPortIntoArgv raw (preferred + 1) =
      A ++ (portAssignment (preferred + 1) ++ B) := by
  have hfp : findAvailablePort preferred occupied = preferred + 1 := by
    unfold findAvailablePort
    rw [findAvailablePortLoop, if_pos hocc, findAvailablePortLoop, if_neg (by simp [hfree])]
    rfl
  have hner : raw.isEmpty = false := by
    cases raw with
    | nil => exact absurd rfl hraw
    | cons c cs => rfl
  have hed : ensureDebugPort preferred (some raw) occupied =
      { result := none, written := some (insertPortIntoArgv raw (preferred + 1)),
        errored := false } := by
    unfold ensureDebugPort
    dsimp only
    rw [hparse]
    dsimp only
    rw [hkey]
    dsimp only
    rw [hner, hfp]
    rfl
  rw [hed]
  exact ⟨hfp, rfl, rfl, insertPortIntoArgv_contains raw (preferred + 1)⟩

def occC8 : Nat → Bool := fun p => p == 9222

/-- Witness for C8: the file `{}` with preferred port 9222 occupied is
rewritten with port 9223 and `null` is returned. -/
theorem C8_port_fallback_witness :
    findAvailablePort 9222 occC8 = 9223 ∧
    (ensureDebugPort 9222 (some ['{', '}']) occC8).result = none ∧
    (ensureDebugPort 9222 (some ['{', '}']) occC8).written =
      some (insertPortIntoArgv ['{', '}'] 9223) ∧
    ∃ A B, insertPortIntoArgv ['{', '}'] 9223 =
      A ++ (portAssignment 9223 ++ B) := by
  have hstrip : stripJsonCommentsV310 ['{', '}'] = ['{', '}'] := by
    have h0 : stripAux false false ['{', '}'] = ['{', '}'] := by
      simp [stripAux_cons, stripAux_nil, quoteChar, backslashChar]
    unfold stripJsonCommentsV310
    rw [h0]
    simp [stripTrailingCommas, wsSpan, isTrimWs]
  have hparse : jsonParse (stripJsonCommentsV310 ['{', '}']) = some (.jobj []) := by
    rw [hstrip]
    rfl
  exact C8_port_fallback 9222 ['{', '}'] occC8 (.jobj []) hparse rfl
    (by decide) rfl rfl

theorem lastBraceSplit_spec (raw : List Char) :
    ∀ b a, lastBraceSplit raw = some (b, a) → raw = b ++ a ∧ a.head? = some '}' := by
  induction raw with
  | nil => intro b a h; cases h
  | cons c cs ih =>
    intro b a h
    rw [lastBraceSplit] at h
    match h2 : lastBraceSplit cs with
    | some (b2, a2) =>
      rw [h2] at h
      injection h with h3
      injection h3 with h4 h5
      obtain ⟨hra, hhd⟩ := ih b2 a2 h2
      subst h4
      subst h5
      exact ⟨by rw [List.cons_append, ← hra], hhd⟩
    | none =>
      rw [h2] at h
      by_cases hc : c = '}'
      · rw [if_pos hc] at h
        injection h with h3
        injection h3 with h4 h5
        subst h4
        subst h5
        exact ⟨rfl, by rw [List.head?_cons, hc]⟩
      · rw [if_neg hc] at h
        cases h

theorem lastBraceSplit_none (raw : List Char) :
    lastBraceSplit raw = none → '}' ∉ raw := by
  induction raw with
  | nil => intro _ h; cases h
  | cons c cs ih =>
    intro h hmem
    rw [lastBraceSplit] at h
    match h2 : lastBraceSplit cs with
    | some (b2, a2) => rw [h2] at h; cases h
    | none =>
      rw [h2] at h
      by_cases hc : c = '}'
      · rw [if_pos hc] at h; cases h
      · rcases List.mem_cons.mp hmem with he | he
        · exact hc he.symm
        · exact ih h2 he

theorem lastBraceSplit_of_mem (raw : List Char) (h : '}' ∈ raw) :
    ∃ b a, lastBraceSplit raw = some (b, a) := by
  match h2 : lastBraceSplit raw with
  | some (b, a) => exact ⟨b, a, rfl⟩
  | none => exact absurd h (lastBraceSplit_none raw h2)

theorem dropLeadingWs_spec (l : List Char) :
    ∃ w, l = w ++ dropLeadingWs l ∧ ∀ c ∈ w, isTrimWs c = true := by
  induction l with
  | nil => exact ⟨[], rfl, by intro c h; cases h⟩
  | cons c cs ih =>
    rw [dropLeadingWs]
    by_cases hc : isTrimWs c = true
    · rw [if_pos hc]
      obtain ⟨w, hw1, hw2⟩ := ih
      refine ⟨c :: w, ?_, ?_⟩
      · rw [List.cons_append, ← hw1]
      · intro d hd
        rcases List.mem_cons.mp hd with rfl | hd2
        · exact hc
        · exact hw2 d hd2
    · rw [if_neg hc]
      exact ⟨[], rfl, by intro d hd; cases hd⟩

theorem trimEndChars_spec (l : List Char) :
    ∃ w, l = trimEndChars l ++ w ∧ ∀ c ∈ w, isTrimWs c = true := by
  obtain ⟨w, hw1, hw2⟩ := dropLeadingWs_spec l.reverse
  refine ⟨w.reverse, ?_, ?_⟩
  · have h2 := congrArg List.reverse hw1
    rw [List.reverse_reverse, List.reverse_append] at h2
    exact h2
  · intro c hc
    exact hw2 c (List.mem_reverse.mp hc)

/-- A file content whose only structure is a line comment and a
non-JSON character: `// c` then `!`. -/
def badC9 : List Char := ['/', '/', ' ', 'c', '\n', '!']

/-- **C9 (counterexample).** An existing file content that contains a
line comment need not parse: on `// c\n!` the stripped text `\n!` is
not JSON, `JSON.parse` throws, and `ensureDebugPort` takes the error
branch, writing nothing — the claim's universal "parses successfully"
fails. -/
theorem C9_counterexample_unparseable_comment :
    (ensureDebugPort 9222 (some badC9) (fun _ => false)).errored = true ∧
    (ensureDebugPort 9222 (some badC9) (fun _ => false)).written = none ∧
    badC9 = '/' :: '/' :: ([' ', 'c'] ++ '\n' :: ['!']) := by
  have h0 : stripAux false false badC9 = ['\n', '!'] := by
    simp [badC9, stripAux_cons, stripAux_nil, dropLine, quoteChar, backslashChar]
  have hstrip : stripJsonCommentsV310 badC9 = ['\n', '!'] := by
    unfold stripJsonCommentsV310
    rw [h0]
    simp [stripTrailingCommas, wsSpan, isTrimWs]
  have hed : ensureDebugPort 9222 (some badC9) (fun _ => false) =
      { result := none, written := none, errored := true } := by
    unfold ensureDebugPort
    dsimp only
    rw [hstrip]
    rfl
  exact ⟨by rw [hed], by rw [hed], rfl⟩

/-- **C9 (amended).** For every existing file content that is valid
JSON once line comments and trailing commas are stripped (and that does
not already carry a truthy debug-port key), `ensureDebugPort` parses it
without taking the error branch and rewrites it through
`insertPortIntoArgv`; and the rewrite preserves the existing text
structurally: the file splits as `A ++ W ++ B` with `B` starting at the
final `}` and `W` trailing whitespace, and the written file is exactly
`A`, an optional comma, the inserted debug-port line, and `B` — all
original comments and entries in `A` and `B` reappear verbatim. -/
theorem C9_strip_parse_and_structural_rewrite (raw : List Char) (o : Json)
    (preferred : Nat) (occupied : Nat → Bool)
    (hraw : raw ≠ [])
    (hparse : jsonParse (stripJsonCommentsV310 raw) = some o)
    (hkey : indexTruthy o portKey = Except.ok none)
    (hbrace : '}' ∈ raw) :
    (ensureDebugPort preferred (some raw) occupied).errored = false ∧
    (ensureDebugPort preferred (some raw) occupied).written =
      some (insertPortIntoArgv raw (findAvailablePort preferred occupied)) ∧
    ∀ port, ∃ A W B,
      raw = A ++ (W ++ B) ∧ (∀ c ∈ W, isTrimWs c = true) ∧ B.head? = some '}' ∧
      insertPortIntoArgv raw port =
        A ++ ((if needsCommaAfter A then [','] else []) ++ (portLine port ++ B)) := by
  have hner : raw.isEmpty = false := by
    cases raw with
    | nil => exact absurd rfl hraw
    | cons c cs => rfl
  have hed : ensureDebugPort preferred (some raw) occupied =
      { result := none,
        written := some (insertPortIntoArgv raw (findAvailablePort preferred occupied)),
        errored := false } := by
    unfold ensureDebugPort
    dsimp only
    rw [hparse]
    dsimp only
    rw [hkey]
    dsimp only
    rw [hner]
    rfl
  refine ⟨by rw [hed], by rw [hed], ?_⟩
  intro port
  obtain ⟨b, a, hsplit⟩ := lastBraceSplit_of_mem raw hbrace
  obtain ⟨hra, hhead⟩ := lastBraceSplit_spec raw b a hsplit
  obtain ⟨w, hw1, hw2⟩ := trimEndChars_spec b
  refine ⟨trimEndChars b, w, a, ?_, hw2, hhead, ?_⟩
  · rw [hra]
    conv_lhs => rw [hw1]
    rw [List.append_assoc]
  · unfold insertPortIntoArgv
    rw [hsplit]
    dsimp only
    rw [List.append_assoc]

/-- `{\n// c\n "a": 1,\n}` — an argv.json with a line comment and a
trailing comma. -/
def goodC9 : List Char :=
  '{' :: '\n' :: '/' :: '/' :: ' ' :: 'c' :: '\n' :: ' ' :: quoteChar :: 'a' ::
    quoteChar :: ':' :: ' ' :: '1' :: ',' :: '\n' :: ['}']

/-- Witness for the amended C9: the comment and trailing comma are
tolerated (no error branch), the file is rewritten through
`insertPortIntoArgv`, and the rewrite keeps the original text around
the inserted line. -/
theorem C9_strip_parse_and_structural_rewrite_witness :
    (ensureDebugPort 9222 (some goodC9) (fun _ => false)).errored = false ∧
    (ensureDebugPort 9222 (some goodC9) (fun _ => false)).written =
      some (insertPortIntoArgv goodC9 (findAvailablePort 9222 (fun _ => false))) ∧
    ∃ A W B,
      goodC9 = A ++ (W ++ B) ∧ (∀ c ∈ W, isTrimWs c = true) ∧ B.head? = some '}' ∧
      insertPortIntoArgv goodC9 9222 =
        A ++ ((if needsCommaAfter A then [','] else []) ++ (portLine 9222 ++ B)) := by
  have h0 : stripAux false false goodC9 =
      '{' :: '\n' :: '\n' :: ' ' :: quoteChar :: 'a' :: quoteChar :: ':' :: ' ' ::
        '1' :: ',' :: '\n' :: ['}'] := by
    simp [goodC9, stripAux_cons, stripAux_nil, dropLine, quoteChar, backslashChar]
  have hstrip : stripJsonCommentsV310 goodC9 =
      '{' :: '\n' :: '\n' :: ' ' :: quoteChar :: 'a' :: quoteChar :: ':' :: ' ' ::
        '1' :: '\n' :: ['}'] := by
    unfold stripJsonCommentsV310
    rw [h0]
    simp [stripTrailingCommas, wsSpan, isTrimWs, quoteChar]
  have hparse : jsonParse (stripJsonCommentsV310 goodC9) =
      some (.jobj [(['a'], .jnum false [1] [] false [])]) := by
    rw [hstrip]
    rfl
  have h := C9_strip_parse_and_structural_rewrite goodC9
    (.jobj [(['a'], .jnum false [1] [] false [])]) 9222 (fun _ => false)
    (by decide) hparse rfl (by decide)
  exact ⟨h.1, h.2.1, h.2.2 9222⟩

end YoloMode
